import Mathlib

/-!
Verification of the hash-to-bucket benchmark (`src/main.rs`).

The program assigns 32-byte identifiers to 100 buckets through a keyed
BLAKE3 hash (`index = bucket_count * digest / 2^64`) and computes summary
statistics (min, max, spread, mean, median, mode, mode_count and a
mean-absolute-deviation value labelled `std_dev`) of the resulting
bucket-count array, once per epoch.

Modelling conventions:
* machine integers (`u64`, `u128`, `usize`) are `Nat`; wherever the Rust
  arithmetic could wrap we prove the values stay below the type's modulus;
* bytes are `Nat` values, with `< 256` hypotheses where a digest's numeric
  range matters;
* the BLAKE3 compression itself is an external library primitive, so the
  functions below take it as an explicit argument
  `blake3 : List Nat → List Nat → List Nat` (key bytes, input bytes ↦
  output bytes); theorems that need its real properties assume only its
  output length (32 bytes of values `< 256`);
* fallible operations (slice indexing, `try_into().unwrap()`,
  `freq.last().unwrap()`, the `usize` subtraction `max - min`) are modelled
  in `Option`, returning `none` exactly where the Rust code would panic;
* `f64` arithmetic in `std_dev` is modelled by exact rationals `ℚ`;
* the iteration order of the `HashMap` in `analyze_buckets` is unspecified
  in Rust, so the model takes it as an explicit argument `order` (the list
  of distinct keys in the order the map yields them).
-/

namespace HashBucket

/-- Source constant `BUCKETS: usize = 100`. -/
def BUCKETS : Nat := 100

/-- Source constant `EPOCHS: u64 = 1000`. -/
def EPOCHS : Nat := 1000

/-- The number of values of a `u64`: `(u64::MAX as u128) + 1 = 2^64`. -/
def U64 : Nat := 2 ^ 64

/-- Model of `u64::to_le_bytes`: the eight little-endian bytes of a 64-bit value. -/
def u64ToLeBytes (x : Nat) : List Nat :=
  (List.range 8).map fun i => x / 2 ^ (8 * i) % 256

/-- Model of `u64::from_le_bytes`: read a byte list little-endian (first byte
is the least significant). -/
def u64FromLeBytes (bytes : List Nat) : Nat :=
  bytes.foldr (fun b acc => b + 256 * acc) 0

/-- State of `Blake3Hasher`: the 32-byte key it was constructed with and the
bytes written so far (BLAKE3 is a streaming hash, so the digest depends only
on the key and the concatenation of all written bytes). -/
structure Blake3Hasher where
  key : List Nat
  data : List Nat
deriving DecidableEq

/-- The chunk-tiling loop of `Blake3Hasher::new_with_seed`:
`for chunk in key.chunks_mut(8) { chunk.copy_from_slice(&seed_bytes) }`.
Each 8-byte chunk of `key` is overwritten with `src`.  (`copy_from_slice`
requires the chunk and `src` to have equal length; that holds at the only
call site, a 32-byte key tiled with the 8 seed bytes.) -/
def chunksCopy (src : List Nat) : List Nat → List Nat
  | [] => []
  | b :: rest => src ++ chunksCopy src ((b :: rest).drop 8)
termination_by l => l.length
decreasing_by simp; omega

/-- Model of `Blake3Hasher::new_with_seed(seed)`: tile the seed's little-endian bytes
over a zeroed 32-byte key and start a keyed hasher with no data written. -/
def Blake3Hasher.new_with_seed (seed : Nat) : Blake3Hasher :=
  let seed_bytes := u64ToLeBytes seed
  let key := chunksCopy seed_bytes (List.replicate 32 0)
  { key := key, data := [] }

/-- Model of `Hasher::write for Blake3Hasher`: `self.0.update(bytes)` appends to the
hashed stream. -/
def Blake3Hasher.write (self : Blake3Hasher) (bytes : List Nat) : Blake3Hasher :=
  { self with data := self.data ++ bytes }

/-- Model of `Hasher::finish for Blake3Hasher`: finalize, then
`u64::from_le_bytes(hash.as_bytes()[..8].try_into().unwrap())`.  The
`[..8]` slice and `try_into` fail when the digest has fewer than 8 bytes. -/
def Blake3Hasher.finish (blake3 : List Nat → List Nat → List Nat)
    (self : Blake3Hasher) : Option Nat :=
  let hash := blake3 self.key self.data
  if 8 ≤ hash.length then some (u64FromLeBytes (hash.take 8)) else none

/-- The digest-to-bucket map of `address_to_bucket_with_epoch_hasher`:
`((buckets as u128) * (hash as u128) / ((u64::MAX as u128) + 1)) as usize`. -/
def bucketOfHash (buckets hash : Nat) : Nat :=
  buckets * hash / U64

/-- Model of `address_to_bucket_with_epoch_hasher`: write the address bytes, take the
64-bit digest, map it to a bucket index. -/
def address_to_bucket_with_epoch_hasher (blake3 : List Nat → List Nat → List Nat)
    (buckets : Nat) (hasher : Blake3Hasher) (address : List Nat) : Option Nat :=
  (Blake3Hasher.finish blake3 (hasher.write address)).map (bucketOfHash buckets)

/-- The per-address loop of `do_test`: each address is assigned by a clone of
the per-epoch hasher and `buckets[bucket] += 1` (which panics when the index
is out of range, modelled `none`). -/
def assignLoop (blake3 : List Nat → List Nat → List Nat) (hasher : Blake3Hasher) :
    List (List Nat) → List Nat → Option (List Nat)
  | [], buckets => some buckets
  | address :: rest, buckets =>
    match address_to_bucket_with_epoch_hasher blake3 BUCKETS hasher address with
    | none => none
    | some bucket =>
      if h : bucket < buckets.length then
        assignLoop blake3 hasher rest (buckets.set bucket (buckets[bucket] + 1))
      else none

/-- The bucket-filling phase of `do_test`: a fresh array of `BUCKETS` zeros,
then the assignment loop over the dataset. -/
def do_test_buckets (blake3 : List Nat → List Nat → List Nat)
    (hasher : Blake3Hasher) (addresses : List (List Nat)) : Option (List Nat) :=
  assignLoop blake3 hasher addresses (List.replicate BUCKETS 0)

/-- The `BucketAnalysis` record; `std_dev` (an `f64` in the source) is an
exact rational here. -/
structure BucketAnalysis where
  min : Nat
  max : Nat
  spread : Nat
  mean : Nat
  median : Nat
  mode : Nat
  mode_count : Nat
  std_dev : ℚ
deriving DecidableEq

/-- Model of `buckets.sort()`: ascending stable sort (Rust's `sort` is a
stable merge sort). -/
def sortedBuckets (buckets : List Nat) : List Nat :=
  buckets.mergeSort

/-- The entries of the frequency `HashMap` of `analyze_buckets`, listed in the
map's (unspecified) iteration order `order`: after the counting loop each
distinct key `k` holds the number of occurrences of `k` in the (sorted)
array. -/
def freqEntries (order buckets : List Nat) : List (Nat × Nat) :=
  order.map fun k => (k, (sortedBuckets buckets).count k)

/-- Model of `freq.sort_by_key(|(_,v)| *v)`: the frequency entries stably
sorted by occurrence count. -/
def freqSorted (order buckets : List Nat) : List (Nat × Nat) :=
  (freqEntries order buckets).mergeSort fun a b => decide (a.2 ≤ b.2)

/-- Model of `analyze_buckets`.  `order` is the iteration order of the frequency
`HashMap` (see module docstring).  `none` marks the places where the Rust
code would panic: indexing `[0]`, `[BUCKETS - 1]`, `[BUCKETS / 2]` on a short
slice, the `usize` subtraction `max - min` when `max < min`, and
`freq.last().unwrap()` on an empty map. -/
def analyze_buckets (order buckets : List Nat) : Option BucketAnalysis := do
  let sorted := sortedBuckets buckets
  let min ← sorted[0]?
  let max ← sorted[BUCKETS - 1]?
  let spread ← if min ≤ max then some (max - min) else none
  let sum := sorted.sum
  let mean := sum / BUCKETS
  let median ← sorted[BUCKETS / 2]?
  let last ← (freqSorted order buckets).getLast?
  let std_dev := ((sorted.map fun count : Nat => |(count : ℚ) - (mean : ℚ)|).sum) / (BUCKETS : ℚ)
  some { min := min, max := max, spread := spread, mean := mean, median := median,
         mode := last.1, mode_count := last.2, std_dev := std_dev }

/-! ### Helper lemmas -/

theorem u64FromLeBytes_nil : u64FromLeBytes [] = 0 := rfl

theorem u64FromLeBytes_cons (b : Nat) (t : List Nat) :
    u64FromLeBytes (b :: t) = b + 256 * u64FromLeBytes t := rfl

/-- A little-endian byte list of length `n` reads below `256 ^ n`. -/
theorem u64FromLeBytes_lt (l : List Nat) (h : ∀ b ∈ l, b < 256) :
    u64FromLeBytes l < 256 ^ l.length := by
  induction l with
  | nil => simp [u64FromLeBytes_nil]
  | cons b t ih =>
    have hb : b < 256 := h b (by simp)
    have ht : u64FromLeBytes t < 256 ^ t.length :=
      ih fun x hx => h x (by simp [hx])
    have hm : 256 * (u64FromLeBytes t + 1) ≤ 256 * 256 ^ t.length :=
      Nat.mul_le_mul_left 256 (Nat.succ_le_of_lt ht)
    rw [u64FromLeBytes_cons, List.length_cons, pow_succ]
    omega

/-- Core range fact about the digest-to-bucket map, shared by several
theorems below. -/
theorem bucketOfHash_lt (buckets h : Nat) (hb : 0 < buckets) (hh : h < U64) :
    bucketOfHash buckets h < buckets := by
  have hU : 0 < U64 := by norm_num [U64]
  have h1 : buckets * h < buckets * U64 := mul_lt_mul_of_pos_left hh hb
  exact (Nat.div_lt_iff_lt_mul hU).mpr h1

/-- Under the real BLAKE3 output shape (32 bytes, each `< 256`), `finish`
succeeds and the digest is a genuine `u64`. -/
theorem finish_some (blake3 : List Nat → List Nat → List Nat) (hs : Blake3Hasher)
    (h32 : (blake3 hs.key hs.data).length = 32)
    (hby : ∀ b ∈ blake3 hs.key hs.data, b < 256) :
    ∃ v, Blake3Hasher.finish blake3 hs = some v ∧ v < U64 := by
  refine ⟨u64FromLeBytes ((blake3 hs.key hs.data).take 8), ?_, ?_⟩
  · rw [Blake3Hasher.finish]
    simp only [h32]
    norm_num
  · have hlt := u64FromLeBytes_lt ((blake3 hs.key hs.data).take 8)
      (fun b hb => hby b (List.mem_of_mem_take hb))
    have hlen : ((blake3 hs.key hs.data).take 8).length = 8 := by
      simp [h32]
    rw [hlen] at hlt
    calc u64FromLeBytes ((blake3 hs.key hs.data).take 8) < 256 ^ 8 := hlt
      _ ≤ U64 := by norm_num [U64]

/-- Incrementing one in-range cell raises the sum by one. -/
theorem sum_set_add_one :
    ∀ (l : List Nat) (i : Nat) (h : i < l.length), (l.set i (l[i] + 1)).sum = l.sum + 1
  | a :: t, 0, _ => by simp [List.set]; omega
  | a :: t, i + 1, h => by
    have ht : i < t.length := by simpa using h
    simp only [List.set, List.sum_cons, List.getElem_cons_succ]
    rw [sum_set_add_one t i ht]
    omega

/-- Invariant of the `do_test` assignment loop: starting from any 100-element
array it never fails, preserves the length, and adds one to the total count
per address. -/
theorem assignLoop_spec (blake3 : List Nat → List Nat → List Nat)
    (h32 : ∀ k d, (blake3 k d).length = 32)
    (hby : ∀ k d, ∀ b ∈ blake3 k d, b < 256) (hasher : Blake3Hasher) :
    ∀ (addresses : List (List Nat)) (buckets : List Nat), buckets.length = BUCKETS →
      ∃ bs, assignLoop blake3 hasher addresses buckets = some bs ∧
        bs.length = BUCKETS ∧ bs.sum = buckets.sum + addresses.length := by
  intro addresses
  induction addresses with
  | nil => exact fun buckets hlen => ⟨buckets, rfl, hlen, by simp⟩
  | cons address rest ih =>
    intro buckets hlen
    obtain ⟨v, hv, hvU⟩ := finish_some blake3 (hasher.write address) (h32 _ _) (hby _ _)
    have hbpos : 0 < BUCKETS := by norm_num [BUCKETS]
    have hlt : bucketOfHash BUCKETS v < buckets.length := by
      rw [hlen]; exact bucketOfHash_lt _ _ hbpos hvU
    have hset :
        (buckets.set (bucketOfHash BUCKETS v) (buckets[bucketOfHash BUCKETS v] + 1)).length
          = BUCKETS := by
      simp [hlen]
    obtain ⟨bs, hbs, hbl, hbsum⟩ := ih (buckets.set _ _) hset
    refine ⟨bs, ?_, hbl, ?_⟩
    · simp only [assignLoop, address_to_bucket_with_epoch_hasher, hv, Option.map_some']
      rw [dif_pos hlt]
      exact hbs
    · rw [hbsum, sum_set_add_one buckets _ hlt]
      simp only [List.length_cons]
      omega

/-! ### C1: range of the digest-to-bucket map -/

/-- C1 counterexample: at `bucket_count = 0` (and digest `0`) the computed
index is `0`, which does not satisfy `index < bucket_count`. -/
theorem bucketOfHash_zero_bucket_count_cex :
    ¬ (0 ≤ bucketOfHash 0 0 ∧ bucketOfHash 0 0 < 0) := by
  intro h
  exact absurd h.2 (by simp [bucketOfHash])

/-- C1 (amended: `bucket_count ≥ 1`): for every positive `bucket_count` (a
`usize`, hence `< 2^64`) and every 64-bit digest `h`, the 128-bit
intermediate product does not overflow (`bucket_count * h < 2^128`), the
Bucket Assigner computes `index = floor(bucket_count * h / 2^64)`, and
`0 ≤ index < bucket_count`. -/
theorem bucketOfHash_range (buckets h : Nat)
    (hb : 0 < buckets) (hb64 : buckets < U64) (hh : h < U64) :
    buckets * h < 2 ^ 128 ∧ bucketOfHash buckets h = buckets * h / 2 ^ 64 ∧
      0 ≤ bucketOfHash buckets h ∧ bucketOfHash buckets h < buckets := by
  refine ⟨?_, rfl, Nat.zero_le _, bucketOfHash_lt buckets h hb hh⟩
  have : buckets * h < U64 * U64 := Nat.mul_lt_mul'' hb64 hh
  calc buckets * h < U64 * U64 := this
    _ = 2 ^ 128 := by norm_num [U64]

theorem bucketOfHash_range_witness :
    100 * (2 ^ 64 - 1) < 2 ^ 128 ∧
      bucketOfHash 100 (2 ^ 64 - 1) = 100 * (2 ^ 64 - 1) / 2 ^ 64 ∧
      0 ≤ bucketOfHash 100 (2 ^ 64 - 1) ∧ bucketOfHash 100 (2 ^ 64 - 1) < 100 :=
  bucketOfHash_range 100 (2 ^ 64 - 1) (by norm_num) (by norm_num [U64])
    (by norm_num [U64])

/-! ### C10: monotonicity of the digest-to-bucket map -/

/-- C10: for a fixed `bucket_count` the digest-to-bucket map is monotone
non-decreasing in the digest, and consequently the digests mapping to any
one bucket index form a contiguous interval (any digest between two digests
with equal indices has that same index). -/
theorem bucketOfHash_monotone (buckets : Nat) :
    (∀ h1 h2, h1 ≤ h2 → bucketOfHash buckets h1 ≤ bucketOfHash buckets h2) ∧
    (∀ h1 h2 h3, h1 ≤ h2 → h2 ≤ h3 →
      bucketOfHash buckets h1 = bucketOfHash buckets h3 →
      bucketOfHash buckets h2 = bucketOfHash buckets h1) := by
  have mono : ∀ h1 h2, h1 ≤ h2 → bucketOfHash buckets h1 ≤ bucketOfHash buckets h2 := by
    intro h1 h2 h12
    exact Nat.div_le_div_right (Nat.mul_le_mul_left buckets h12)
  refine ⟨mono, ?_⟩
  intro h1 h2 h3 h12 h23 h13
  have l12 := mono h1 h2 h12
  have l23 := mono h2 h3 h23
  omega

theorem bucketOfHash_monotone_witness :
    bucketOfHash 100 5 ≤ bucketOfHash 100 (2 ^ 63) :=
  (bucketOfHash_monotone 100).1 5 (2 ^ 63) (by norm_num)

/-! ### C7: determinism of the assignment -/

/-- C7: bucket assignment is deterministic — two hashers constructed from
equal seeds, fed equal identifier bytes, produce the same 64-bit digest and
hence the same bucket index (the BLAKE3 primitive is a fixed function of key
and data). -/
theorem bucket_assignment_deterministic
    (blake3 : List Nat → List Nat → List Nat)
    (seed1 seed2 : Nat) (addr1 addr2 : List Nat)
    (hseed : seed1 = seed2) (haddr : addr1 = addr2) :
    Blake3Hasher.finish blake3 ((Blake3Hasher.new_with_seed seed1).write addr1) =
      Blake3Hasher.finish blake3 ((Blake3Hasher.new_with_seed seed2).write addr2) ∧
    address_to_bucket_with_epoch_hasher blake3 BUCKETS
        (Blake3Hasher.new_with_seed seed1) addr1 =
      address_to_bucket_with_epoch_hasher blake3 BUCKETS
        (Blake3Hasher.new_with_seed seed2) addr2 := by
  subst hseed
  subst haddr
  exact ⟨rfl, rfl⟩

theorem bucket_assignment_deterministic_witness :
    Blake3Hasher.finish (fun k d => k ++ d) ((Blake3Hasher.new_with_seed 3).write [1, 2]) =
      Blake3Hasher.finish (fun k d => k ++ d) ((Blake3Hasher.new_with_seed 3).write [1, 2]) ∧
    address_to_bucket_with_epoch_hasher (fun k d => k ++ d) BUCKETS
        (Blake3Hasher.new_with_seed 3) [1, 2] =
      address_to_bucket_with_epoch_hasher (fun k d => k ++ d) BUCKETS
        (Blake3Hasher.new_with_seed 3) [1, 2] :=
  bucket_assignment_deterministic (fun k d => k ++ d) 3 3 [1, 2] [1, 2] rfl rfl

/-! ### C5: the assignment pass is a total partition -/

/-- C5: for every epoch and dataset, the per-epoch pass starts from a zeroed
100-element array, increments exactly one bucket per identifier, and ends
with the bucket counts summing to the dataset's length (hypotheses state the
BLAKE3 output shape: 32 bytes, each `< 256`). -/
theorem do_test_buckets_partition (blake3 : List Nat → List Nat → List Nat)
    (h32 : ∀ k d, (blake3 k d).length = 32)
    (hby : ∀ k d, ∀ b ∈ blake3 k d, b < 256)
    (epoch : Nat) (addresses : List (List Nat)) :
    ∃ bs, do_test_buckets blake3 (Blake3Hasher.new_with_seed epoch) addresses = some bs ∧
      bs.length = BUCKETS ∧ bs.sum = addresses.length := by
  obtain ⟨bs, h1, h2, h3⟩ := assignLoop_spec blake3 h32 hby
    (Blake3Hasher.new_with_seed epoch) addresses (List.replicate BUCKETS 0) (by simp)
  exact ⟨bs, h1, h2, by simpa using h3⟩

theorem do_test_buckets_partition_witness :
    ∃ bs, do_test_buckets (fun _ _ => List.replicate 32 0)
        (Blake3Hasher.new_with_seed 0) [[0], [1]] = some bs ∧
      bs.length = BUCKETS ∧ bs.sum = [[0], [1]].length :=
  do_test_buckets_partition (fun _ _ => List.replicate 32 0) (fun _ _ => by simp)
    (fun _ _ b hb => by simp at hb; omega) 0 [[0], [1]]

/-! ### C8: key derivation and digest extraction -/

/-- The tiling loop on the only key shape used by the program: a 32-byte
zeroed key is overwritten chunkwise with four copies of the 8 seed bytes. -/
theorem chunksCopy_replicate32 (src : List Nat) :
    chunksCopy src (List.replicate 32 0) = src ++ (src ++ (src ++ src)) := by
  have h32 : List.replicate 32 (0 : Nat) = 0 :: List.replicate 31 0 := rfl
  rw [h32, chunksCopy]
  norm_num [List.drop_replicate]
  rw [show List.replicate 24 (0 : Nat) = 0 :: List.replicate 23 0 from rfl, chunksCopy]
  norm_num [List.drop_replicate]
  rw [show List.replicate 16 (0 : Nat) = 0 :: List.replicate 15 0 from rfl, chunksCopy]
  norm_num [List.drop_replicate]
  rw [show List.replicate 8 (0 : Nat) = 0 :: List.replicate 7 0 from rfl, chunksCopy]
  norm_num [List.drop_replicate]
  rw [chunksCopy]

/-- C8: the seeded hasher's 32-byte key is the seed's 8 little-endian bytes
tiled four times, and `finish` reads the first 8 digest bytes little-endian
(i.e. returns `b0 + 2^8 b1 + ... + 2^56 b7`). -/
theorem new_with_seed_key_finish (seed : Nat)
    (blake3 : List Nat → List Nat → List Nat) (hs : Blake3Hasher)
    (b0 b1 b2 b3 b4 b5 b6 b7 : Nat) (rest : List Nat)
    (hout : blake3 hs.key hs.data = b0 :: b1 :: b2 :: b3 :: b4 :: b5 :: b6 :: b7 :: rest) :
    (Blake3Hasher.new_with_seed seed).key =
      u64ToLeBytes seed ++ (u64ToLeBytes seed ++ (u64ToLeBytes seed ++ u64ToLeBytes seed)) ∧
    (Blake3Hasher.new_with_seed seed).key.length = 32 ∧
    Blake3Hasher.finish blake3 hs =
      some (b0 + 2 ^ 8 * b1 + 2 ^ 16 * b2 + 2 ^ 24 * b3 + 2 ^ 32 * b4 +
        2 ^ 40 * b5 + 2 ^ 48 * b6 + 2 ^ 56 * b7) := by
  have hkey : (Blake3Hasher.new_with_seed seed).key =
      u64ToLeBytes seed ++ (u64ToLeBytes seed ++ (u64ToLeBytes seed ++ u64ToLeBytes seed)) := by
    simp only [Blake3Hasher.new_with_seed]
    exact chunksCopy_replicate32 (u64ToLeBytes seed)
  refine ⟨hkey, ?_, ?_⟩
  · rw [hkey]
    simp [u64ToLeBytes]
  · have hlen2 : 8 ≤ (blake3 hs.key hs.data).length := by
      rw [hout]
      simp only [List.length_cons]
      omega
    simp only [Blake3Hasher.finish]
    rw [if_pos hlen2, hout]
    simp only [List.take_succ_cons, List.take_zero, u64FromLeBytes_cons, u64FromLeBytes_nil]
    norm_num
    ring_nf

theorem new_with_seed_key_finish_witness :
    (Blake3Hasher.new_with_seed 1).key =
      u64ToLeBytes 1 ++ (u64ToLeBytes 1 ++ (u64ToLeBytes 1 ++ u64ToLeBytes 1)) ∧
    (Blake3Hasher.new_with_seed 1).key.length = 32 ∧
    Blake3Hasher.finish (fun _ _ => [1, 2, 3, 4, 5, 6, 7, 8]) ⟨[], []⟩ =
      some (1 + 2 ^ 8 * 2 + 2 ^ 16 * 3 + 2 ^ 24 * 4 + 2 ^ 32 * 5 +
        2 ^ 40 * 6 + 2 ^ 48 * 7 + 2 ^ 56 * 8) :=
  new_with_seed_key_finish 1 (fun _ _ => [1, 2, 3, 4, 5, 6, 7, 8]) ⟨[], []⟩
    1 2 3 4 5 6 7 8 [] rfl

/-- In a list pairwise-sorted by second component, the last entry's second
component dominates every entry's. -/
theorem snd_le_getLast_of_pairwise :
    ∀ (l : List (Nat × Nat)), (l.Pairwise fun a b => a.2 ≤ b.2) → ∀ (hne : l ≠ [])
      (x : Nat × Nat), x ∈ l → x.2 ≤ (l.getLast hne).2
  | [], _, hne, _, _ => absurd rfl hne
  | [a], _, _, x, hx => by
    simp only [List.mem_singleton] at hx
    subst hx
    simp [List.getLast]
  | a :: b :: t, hl, _, x, hx => by
    have hpair := List.pairwise_cons.mp hl
    have hlast : (a :: b :: t).getLast (by simp) = (b :: t).getLast (by simp) :=
      List.getLast_cons (by simp)
    rw [hlast]
    rcases List.mem_cons.mp hx with rfl | hx2
    · exact hpair.1 _ (List.getLast_mem (by simp))
    · exact snd_le_getLast_of_pairwise (b :: t) hpair.2 (by simp) x hx2

/-- The sorted frequency entries really are sorted by occurrence count. -/
theorem freqSorted_pairwise (order buckets : List Nat) :
    (freqSorted order buckets).Pairwise fun a b => a.2 ≤ b.2 := by
  have h := @List.sorted_mergeSort (Nat × Nat) (fun a b => decide (a.2 ≤ b.2))
    (fun a b c h1 h2 => by
      simp only [decide_eq_true_eq] at h1 h2 ⊢
      omega)
    (fun a b => by
      simp only [Bool.or_eq_true, decide_eq_true_eq]
      omega)
    (freqEntries order buckets)
  exact h.imp fun hab => by simpa using hab

/-- Reduction of `analyze_buckets` on a 100-element array with a nonempty
frequency-map iteration order: it succeeds, and every field is characterised
against the sorted array and the count-sorted frequency entries. -/
theorem analyze_buckets_some (order buckets : List Nat)
    (hlen : buckets.length = BUCKETS) (horder : order ≠ []) :
    ∃ a : BucketAnalysis,
      analyze_buckets order buckets = some a ∧
      (sortedBuckets buckets)[0]? = some a.min ∧
      (sortedBuckets buckets)[BUCKETS - 1]? = some a.max ∧
      a.spread = a.max - a.min ∧
      a.mean = (sortedBuckets buckets).sum / BUCKETS ∧
      (sortedBuckets buckets)[BUCKETS / 2]? = some a.median ∧
      (freqSorted order buckets).getLast? = some (a.mode, a.mode_count) ∧
      a.std_dev =
        (((sortedBuckets buckets).map fun c : Nat => |(c : ℚ) - (a.mean : ℚ)|).sum) / (BUCKETS : ℚ) := by
  have hs : (sortedBuckets buckets).length = BUCKETS := by
    simp [sortedBuckets, hlen]
  have h0 : 0 < (sortedBuckets buckets).length := by rw [hs]; norm_num [BUCKETS]
  have h99 : BUCKETS - 1 < (sortedBuckets buckets).length := by rw [hs]; norm_num [BUCKETS]
  have h50 : BUCKETS / 2 < (sortedBuckets buckets).length := by rw [hs]; norm_num [BUCKETS]
  have hsorted : (sortedBuckets buckets).Sorted (· ≤ ·) := List.sorted_mergeSort' buckets
  have hminmax : (sortedBuckets buckets)[0] ≤ (sortedBuckets buckets)[BUCKETS - 1] := by
    have h := hsorted.rel_get_of_lt
      (show (⟨0, h0⟩ : Fin (sortedBuckets buckets).length) < ⟨BUCKETS - 1, h99⟩ from
        Fin.mk_lt_mk.mpr (by norm_num [BUCKETS]))
    simpa using h
  have hfne : freqSorted order buckets ≠ [] := by
    apply List.ne_nil_of_length_pos
    simp only [freqSorted, List.length_mergeSort, freqEntries, List.length_map]
    exact List.length_pos.mpr horder
  obtain ⟨p, hp⟩ := Option.isSome_iff_exists.mp (List.getLast?_isSome.mpr hfne)
  refine ⟨{ min := (sortedBuckets buckets)[0],
            max := (sortedBuckets buckets)[BUCKETS - 1],
            spread := (sortedBuckets buckets)[BUCKETS - 1] - (sortedBuckets buckets)[0],
            mean := (sortedBuckets buckets).sum / BUCKETS,
            median := (sortedBuckets buckets)[BUCKETS / 2],
            mode := p.1, mode_count := p.2,
            std_dev := (((sortedBuckets buckets).map fun c : Nat =>
              |(c : ℚ) - (((sortedBuckets buckets).sum / BUCKETS : ℕ) : ℚ)|).sum) / (BUCKETS : ℚ) },
          ?_, List.getElem?_eq_getElem h0, List.getElem?_eq_getElem h99, rfl, rfl,
          List.getElem?_eq_getElem h50, by simp [hp], rfl⟩
  rw [analyze_buckets]
  simp only [List.getElem?_eq_getElem h0, List.getElem?_eq_getElem h99,
    List.getElem?_eq_getElem h50, hp, Option.bind_eq_bind, Option.some_bind]
  rw [if_pos hminmax]

/-- In an ascending-sorted list, entries grow with the index. -/
theorem sorted_getElem_le (l : List Nat) (hs : l.Sorted (· ≤ ·)) (i j : Nat)
    (hij : i ≤ j) (hj : j < l.length) (hi : i < l.length) : l[i] ≤ l[j] := by
  have h := hs.rel_get_of_le
    (show (⟨i, hi⟩ : Fin l.length) ≤ ⟨j, hj⟩ from Fin.mk_le_mk.mpr hij)
  simpa using h

/-- Every element of a list of naturals bounded below by `m` contributes at
least `m` to the sum. -/
theorem length_mul_le_sum :
    ∀ (l : List Nat) (m : Nat), (∀ x ∈ l, m ≤ x) → l.length * m ≤ l.sum
  | [], _, _ => by simp
  | a :: t, m, h => by
    have ht := length_mul_le_sum t m fun x hx => h x (by simp [hx])
    have ha := h a (by simp)
    simp only [List.length_cons, List.sum_cons, Nat.succ_mul]
    omega

/-- Every element of a list of naturals bounded above by `M` contributes at
most `M` to the sum. -/
theorem sum_le_length_mul :
    ∀ (l : List Nat) (M : Nat), (∀ x ∈ l, x ≤ M) → l.sum ≤ l.length * M
  | [], _, _ => by simp
  | a :: t, M, h => by
    have ht := sum_le_length_mul t M fun x hx => h x (by simp [hx])
    have ha := h a (by simp)
    simp only [List.length_cons, List.sum_cons, Nat.succ_mul]
    omega

/-! ### C2: the sorted-array statistics -/

/-- C2: the Analyzer sorts the 100-element array ascending and reports
`min` = the smallest element, `max` = the largest element,
`spread = max - min`, `mean` = the truncating division of the sum by 100,
and `median` = the 0-based index-50 element of the sorted array. -/
theorem analyze_buckets_sorted_stats (order buckets : List Nat)
    (hlen : buckets.length = BUCKETS) (horder : order ≠ []) :
    ∃ a, analyze_buckets order buckets = some a ∧
      a.min ∈ buckets ∧ (∀ x ∈ buckets, a.min ≤ x) ∧
      a.max ∈ buckets ∧ (∀ x ∈ buckets, x ≤ a.max) ∧
      a.spread = a.max - a.min ∧
      a.mean = buckets.sum / BUCKETS ∧
      (∀ s : List Nat, s.Perm buckets → s.Sorted (· ≤ ·) →
        s[BUCKETS / 2]? = some a.median) := by
  obtain ⟨a, ha, e0, e99, esp, emean, e50, emode, estd⟩ :=
    analyze_buckets_some order buckets hlen horder
  have hs : (sortedBuckets buckets).length = BUCKETS := by simp [sortedBuckets, hlen]
  have h0 : 0 < (sortedBuckets buckets).length := by rw [hs]; norm_num [BUCKETS]
  have h99 : BUCKETS - 1 < (sortedBuckets buckets).length := by rw [hs]; norm_num [BUCKETS]
  have hperm : (sortedBuckets buckets).Perm buckets := List.mergeSort_perm buckets _
  have hsorted : (sortedBuckets buckets).Sorted (· ≤ ·) := List.sorted_mergeSort' buckets
  have hmin : a.min = (sortedBuckets buckets)[0] :=
    (Option.some.inj ((List.getElem?_eq_getElem h0).symm.trans e0)).symm
  have hmax : a.max = (sortedBuckets buckets)[BUCKETS - 1] :=
    (Option.some.inj ((List.getElem?_eq_getElem h99).symm.trans e99)).symm
  refine ⟨a, ha, ?_, ?_, ?_, ?_, esp, ?_, ?_⟩
  · rw [hmin]
    exact hperm.subset (List.getElem_mem _)
  · intro x hx
    obtain ⟨i, hi⟩ := List.mem_iff_get.mp (hperm.mem_iff.mpr hx)
    rw [hmin, ← hi]
    have := sorted_getElem_le _ hsorted 0 i.val (Nat.zero_le _) i.isLt
      (lt_of_le_of_lt (Nat.zero_le _) i.isLt)
    simpa using this
  · rw [hmax]
    exact hperm.subset (List.getElem_mem _)
  · intro x hx
    obtain ⟨i, hi⟩ := List.mem_iff_get.mp (hperm.mem_iff.mpr hx)
    rw [hmax, ← hi]
    have hival : i.val ≤ BUCKETS - 1 := by
      have h1 := i.isLt
      omega
    have := sorted_getElem_le _ hsorted i.val (BUCKETS - 1) hival h99 i.isLt
    simpa using this
  · rw [emean, hperm.sum_eq]
  · intro s hsp hss
    have hseq : s = sortedBuckets buckets :=
      List.eq_of_perm_of_sorted (hsp.trans hperm.symm) hss hsorted
    rw [hseq, e50]

theorem analyze_buckets_sorted_stats_witness :
    ∃ a, analyze_buckets [2] (List.replicate 100 2) = some a ∧
      a.min ∈ List.replicate 100 2 ∧ (∀ x ∈ List.replicate 100 2, a.min ≤ x) ∧
      a.max ∈ List.replicate 100 2 ∧ (∀ x ∈ List.replicate 100 2, x ≤ a.max) ∧
      a.spread = a.max - a.min ∧
      a.mean = (List.replicate 100 2).sum / BUCKETS ∧
      (∀ s : List Nat, s.Perm (List.replicate 100 2) → s.Sorted (· ≤ ·) →
        s[BUCKETS / 2]? = some a.median) :=
  analyze_buckets_sorted_stats [2] (List.replicate 100 2) (by simp [BUCKETS]) (by simp)

/-! ### C3: the `std_dev` field is the mean absolute deviation -/

/-- C3: the field named `std_dev` equals the mean absolute deviation
`(Σ |c - mean|) / 100` over the 100 elements, where `mean` is the truncating
integer mean (cast to the numeric field), not a recomputed fractional mean
and not a standard deviation. -/
theorem analyze_buckets_mad (order buckets : List Nat)
    (hlen : buckets.length = BUCKETS) (horder : order ≠ []) :
    ∃ a, analyze_buckets order buckets = some a ∧
      a.mean = buckets.sum / BUCKETS ∧
      a.std_dev = ((buckets.map fun c : Nat => |(c : ℚ) - (a.mean : ℚ)|).sum) / (BUCKETS : ℚ) := by
  obtain ⟨a, ha, e0, e99, esp, emean, e50, emode, estd⟩ :=
    analyze_buckets_some order buckets hlen horder
  have hperm : (sortedBuckets buckets).Perm buckets := List.mergeSort_perm buckets _
  refine ⟨a, ha, by rw [emean, hperm.sum_eq], ?_⟩
  rw [estd]
  congr 1
  exact (hperm.map _).sum_eq

theorem analyze_buckets_mad_witness :
    ∃ a, analyze_buckets [2] (List.replicate 100 2) = some a ∧
      a.mean = (List.replicate 100 2).sum / BUCKETS ∧
      a.std_dev = (((List.replicate 100 2).map fun c : Nat =>
        |(c : ℚ) - (a.mean : ℚ)|).sum) / (BUCKETS : ℚ) :=
  analyze_buckets_mad [2] (List.replicate 100 2) (by simp [BUCKETS]) (by simp)

/-! ### C4: mode and mode_count -/

/-- C4: `mode_count` is the true maximum occurrence count over the frequency
map, and `mode` is a count-value occurring exactly `mode_count` times among
the 100 buckets; which value wins among ties depends only on the map's
iteration order `order`. -/
theorem analyze_buckets_mode (order buckets : List Nat)
    (hlen : buckets.length = BUCKETS)
    (hord : ∀ k, k ∈ order ↔ k ∈ buckets) :
    ∃ a, analyze_buckets order buckets = some a ∧
      buckets.count a.mode = a.mode_count ∧
      ∀ k, buckets.count k ≤ a.mode_count := by
  have hbne : buckets ≠ [] := by
    apply List.ne_nil_of_length_pos
    rw [hlen]
    norm_num [BUCKETS]
  have horder : order ≠ [] := by
    obtain ⟨x, hx⟩ := List.exists_mem_of_ne_nil buckets hbne
    intro h
    have := (hord x).mpr hx
    rw [h] at this
    simp at this
  obtain ⟨a, ha, e0, e99, esp, emean, e50, emode, estd⟩ :=
    analyze_buckets_some order buckets hlen horder
  have hfne : freqSorted order buckets ≠ [] := by
    intro h
    rw [h] at emode
    simp at emode
  have hgl : (freqSorted order buckets).getLast hfne = (a.mode, a.mode_count) := by
    have h := List.getLast?_eq_getLast (freqSorted order buckets) hfne
    rw [h] at emode
    exact Option.some.inj emode
  have hperm : (sortedBuckets buckets).Perm buckets := List.mergeSort_perm buckets _
  have hlastmem : (a.mode, a.mode_count) ∈ freqSorted order buckets := by
    rw [← hgl]
    exact List.getLast_mem hfne
  have hentry : (a.mode, a.mode_count) ∈ freqEntries order buckets :=
    List.mem_mergeSort.mp hlastmem
  obtain ⟨k, hk, hkeq⟩ := List.mem_map.mp hentry
  have hk1 : k = a.mode := congrArg Prod.fst hkeq
  have hk2 : (sortedBuckets buckets).count k = a.mode_count := congrArg Prod.snd hkeq
  refine ⟨a, ha, ?_, ?_⟩
  · rw [← hk1, ← hk2]
    exact (hperm.count_eq k).symm
  · intro k2
    by_cases hk2b : k2 ∈ buckets
    · have hk2o : k2 ∈ order := (hord k2).mpr hk2b
      have hmem : (k2, (sortedBuckets buckets).count k2) ∈ freqEntries order buckets :=
        List.mem_map.mpr ⟨k2, hk2o, rfl⟩
      have hmem2 : (k2, (sortedBuckets buckets).count k2) ∈ freqSorted order buckets :=
        List.mem_mergeSort.mpr hmem
      have hle := snd_le_getLast_of_pairwise _ (freqSorted_pairwise order buckets) hfne
        _ hmem2
      rw [hgl] at hle
      calc buckets.count k2 = (sortedBuckets buckets).count k2 := (hperm.count_eq k2).symm
        _ ≤ a.mode_count := hle
    · rw [List.count_eq_zero.mpr hk2b]
      exact Nat.zero_le _

theorem analyze_buckets_mode_witness :
    ∃ a, analyze_buckets [2] (List.replicate 100 2) = some a ∧
      (List.replicate 100 2).count a.mode = a.mode_count ∧
      ∀ k, (List.replicate 100 2).count k ≤ a.mode_count :=
  analyze_buckets_mode [2] (List.replicate 100 2) (by simp [BUCKETS])
    (by intro k; simp [List.mem_replicate])

/-! ### C6: ordering relations between the statistics -/

/-- C6: for any well-formed (100-element) bucket-count array the analysis
satisfies `min ≤ mean ≤ max`, `min ≤ median ≤ max`, `spread = max - min`
(a `Nat`, hence `≥ 0`), and the mean-absolute-deviation value is `≥ 0`. -/
theorem analyze_buckets_bounds (order buckets : List Nat)
    (hlen : buckets.length = BUCKETS) (horder : order ≠ []) :
    ∃ a, analyze_buckets order buckets = some a ∧
      a.min ≤ a.mean ∧ a.mean ≤ a.max ∧
      a.min ≤ a.median ∧ a.median ≤ a.max ∧
      a.spread = a.max - a.min ∧ 0 ≤ a.std_dev := by
  obtain ⟨a, ha, e0, e99, esp, emean, e50, emode, estd⟩ :=
    analyze_buckets_some order buckets hlen horder
  have hs : (sortedBuckets buckets).length = BUCKETS := by simp [sortedBuckets, hlen]
  have hB : 0 < BUCKETS := by norm_num [BUCKETS]
  have h0 : 0 < (sortedBuckets buckets).length := by rw [hs]; exact hB
  have h99 : BUCKETS - 1 < (sortedBuckets buckets).length := by rw [hs]; norm_num [BUCKETS]
  have h50 : BUCKETS / 2 < (sortedBuckets buckets).length := by rw [hs]; norm_num [BUCKETS]
  have hsorted : (sortedBuckets buckets).Sorted (· ≤ ·) := List.sorted_mergeSort' buckets
  have hmin : a.min = (sortedBuckets buckets)[0] :=
    (Option.some.inj ((List.getElem?_eq_getElem h0).symm.trans e0)).symm
  have hmax : a.max = (sortedBuckets buckets)[BUCKETS - 1] :=
    (Option.some.inj ((List.getElem?_eq_getElem h99).symm.trans e99)).symm
  have hmed : a.median = (sortedBuckets buckets)[BUCKETS / 2] :=
    (Option.some.inj ((List.getElem?_eq_getElem h50).symm.trans e50)).symm
  refine ⟨a, ha, ?_, ?_, ?_, ?_, esp, ?_⟩
  · rw [hmin, emean]
    apply (Nat.le_div_iff_mul_le hB).mpr
    have hforall : ∀ x ∈ sortedBuckets buckets, (sortedBuckets buckets)[0] ≤ x := by
      intro x hx
      obtain ⟨i, hi⟩ := List.mem_iff_get.mp hx
      rw [← hi]
      have := sorted_getElem_le _ hsorted 0 i.val (Nat.zero_le _) i.isLt
        (lt_of_le_of_lt (Nat.zero_le _) i.isLt)
      simpa using this
    have hsum := length_mul_le_sum (sortedBuckets buckets) _ hforall
    rw [hs] at hsum
    rw [Nat.mul_comm]
    exact hsum
  · rw [hmax, emean]
    have hforall : ∀ x ∈ sortedBuckets buckets, x ≤ (sortedBuckets buckets)[BUCKETS - 1] := by
      intro x hx
      obtain ⟨i, hi⟩ := List.mem_iff_get.mp hx
      rw [← hi]
      have hival : i.val ≤ BUCKETS - 1 := by
        have h1 := i.isLt
        omega
      have := sorted_getElem_le _ hsorted i.val (BUCKETS - 1) hival h99 i.isLt
      simpa using this
    have hsum := sum_le_length_mul (sortedBuckets buckets) _ hforall
    rw [hs] at hsum
    calc (sortedBuckets buckets).sum / BUCKETS
        ≤ BUCKETS * (sortedBuckets buckets)[BUCKETS - 1] / BUCKETS :=
          Nat.div_le_div_right hsum
      _ = (sortedBuckets buckets)[BUCKETS - 1] := Nat.mul_div_cancel_left _ hB
  · rw [hmin, hmed]
    exact sorted_getElem_le _ hsorted 0 (BUCKETS / 2) (Nat.zero_le _) h50
      (lt_of_le_of_lt (Nat.zero_le _) h50)
  · rw [hmed, hmax]
    exact sorted_getElem_le _ hsorted (BUCKETS / 2) (BUCKETS - 1) (by norm_num [BUCKETS])
      h99 h50
  · rw [estd]
    apply div_nonneg
    · apply List.sum_nonneg
      intro y hy
      obtain ⟨c, _, hc⟩ := List.mem_map.mp hy
      rw [← hc]
      exact abs_nonneg _
    · norm_num [BUCKETS]

theorem analyze_buckets_bounds_witness :
    ∃ a, analyze_buckets [2] (List.replicate 100 2) = some a ∧
      a.min ≤ a.mean ∧ a.mean ≤ a.max ∧
      a.min ≤ a.median ∧ a.median ≤ a.max ∧
      a.spread = a.max - a.min ∧ 0 ≤ a.std_dev :=
  analyze_buckets_bounds [2] (List.replicate 100 2) (by simp [BUCKETS]) (by simp)

/-! ### C9: totality of the analysis phase -/

/-- C9: once the dataset is loaded, the per-epoch phase cannot fail — under
the fixed constants (100 buckets, 32-byte digests of byte values `< 256`)
every bucket index stays in bounds, the analyzer's indexing, subtraction and
`freq.last().unwrap()` all succeed, and the 8-byte digest extraction
succeeds, so both phases return `some`. -/
theorem pipeline_total (blake3 : List Nat → List Nat → List Nat)
    (h32 : ∀ k d, (blake3 k d).length = 32)
    (hby : ∀ k d, ∀ b ∈ blake3 k d, b < 256)
    (epoch : Nat) (addresses : List (List Nat)) (order : List Nat) :
    ∃ bs, do_test_buckets blake3 (Blake3Hasher.new_with_seed epoch) addresses = some bs ∧
      ((∀ k, k ∈ order ↔ k ∈ bs) → ∃ a, analyze_buckets order bs = some a) := by
  obtain ⟨bs, h1, h2, _⟩ := assignLoop_spec blake3 h32 hby
    (Blake3Hasher.new_with_seed epoch) addresses (List.replicate BUCKETS 0) (by simp)
  refine ⟨bs, h1, ?_⟩
  intro hord
  have hbne : bs ≠ [] := by
    apply List.ne_nil_of_length_pos
    rw [h2]
    norm_num [BUCKETS]
  have horder : order ≠ [] := by
    obtain ⟨x, hx⟩ := List.exists_mem_of_ne_nil bs hbne
    intro h
    have := (hord x).mpr hx
    rw [h] at this
    simp at this
  obtain ⟨a, ha, _⟩ := analyze_buckets_some order bs h2 horder
  exact ⟨a, ha⟩

theorem pipeline_total_witness :
    ∃ bs, do_test_buckets (fun _ _ => List.replicate 32 0)
        (Blake3Hasher.new_with_seed 0) [[0], [1]] = some bs ∧
      ((∀ k, k ∈ [0, 2] ↔ k ∈ bs) → ∃ a, analyze_buckets [0, 2] bs = some a) :=
  pipeline_total (fun _ _ => List.replicate 32 0) (fun _ _ => by simp)
    (fun _ _ b hb => by simp at hb; omega) 0 [[0], [1]] [0, 2]

end HashBucket
